import Mathlib

/-!
Shallow embedding of the thing-system repository (Go package ts): a
generational slot arena (`Things`) together with the intrusive circular
doubly linked list (`List[Thing]`, here the `TList` operations) that is
embedded inside the stored records.

Conventions of the embedding, all taken from the source in src/list.go:

* uint32 values are `Nat`; arithmetic that can overflow is taken mod
  `U32` (the generation bump in `Del`).
* Go slices of length `maxThings` are total functions `Nat → α`
  (`len(used) = len(things) = len(generations) = maxThings` holds for
  the whole life of an arena, so the length is the single `maxThings`
  field).  Every slice read performed by the source is guarded to stay
  below `maxThings`, so values of the functions beyond that bound are
  never observed.
* The generic record type is specialised to `Thing` = a `Nat` payload
  plus one embedded list control block.  The unsafe offset arithmetic
  of the source then always addresses this single block, so a
  `*List[Thing]` pointer is either a slot of the arena
  (`BlockPtr.slot i`) or a pointer to an escaped temporary returned by
  `Things.get` for an invalid reference (`BlockPtr.temp`).  In every
  source path a temporary is never read again after being written
  through any alias, and its `owner` field is never written at all, so
  reading a temporary yields the zero block and writes to it are
  dropped.
* The block field `things *Things[Thing]` is the Bool
  `ListData.things`: `false` is the nil pointer and `true` points to
  the single ambient arena (the state being threaded).  Dereferencing
  the field while it is `false` is a Go nil-pointer panic, modelled as
  `Option.none` (`InsertNext` is the one operation that can do this).
* The package-global `logger` is a Bool flag (present / nil).  The only
  source line that calls the logger without a nil guard is the one in
  `List.append`, so `append` takes the flag and returns `none` (panic)
  exactly when its guard trips while the logger is absent; every other
  operation behaves identically with or without the logger.
-/

def U32 : Nat := 4294967296

structure ThingRef where
  idx : Nat
  generation : Nat
deriving DecidableEq, Repr

def NilRef : ThingRef := ⟨0, 0⟩

/-- One embedded list control block: the fields of Go `List[Thing]`.
The `offset` field is dropped (the specialised record has a single
block) and the `things` pointer becomes a Bool, see the header. -/
structure ListData where
  things : Bool
  isInitialized : Bool
  owner : ThingRef
  first : ThingRef
  next : ThingRef
  prev : ThingRef
deriving DecidableEq, Repr

def ListData.zero : ListData :=
  { things := false, isInitialized := false, owner := NilRef
    first := NilRef, next := NilRef, prev := NilRef }

/-- A stored record: payload plus the single embedded control block. -/
structure Thing where
  payload : Nat
  ld : ListData
deriving DecidableEq, Repr

def Thing.zero : Thing := ⟨0, ListData.zero⟩

def mkThing (p : Nat) : Thing := ⟨p, ListData.zero⟩

/-- A `*List[Thing]` pointer: a block embedded in an arena slot, or a
pointer to an escaped zero temporary produced by `get` on an invalid
reference. -/
inductive BlockPtr where
  | slot (i : Nat)
  | temp
deriving DecidableEq, Repr

/-- Slice update (`xs[i] = v`). -/
def upd {α : Type} (f : Nat → α) (i : Nat) (v : α) : Nat → α :=
  fun j => if j = i then v else f j

/-- The arena `Things[Thing]` of the source. -/
structure Things where
  maxThings : Nat
  activeThings : Nat
  things : Nat → Thing
  used : Nat → Bool
  generations : Nat → Nat
  insideLists : List (ThingRef × List BlockPtr)

/-- Lookup in the `insideLists` map (a missing key is the empty slice). -/
def mapGet (m : List (ThingRef × List BlockPtr)) (k : ThingRef) : List BlockPtr :=
  match m.find? (fun e => e.fst = k) with
  | some e => e.snd
  | none => []

/-- Store in the `insideLists` map. -/
def mapSet : List (ThingRef × List BlockPtr) → ThingRef → List BlockPtr →
    List (ThingRef × List BlockPtr)
  | [], k, v => [(k, v)]
  | e :: rest, k, v => if e.fst = k then (k, v) :: rest else e :: mapSet rest k v

/-- `delete` on the `insideLists` map. -/
def mapDel (m : List (ThingRef × List BlockPtr)) (k : ThingRef) :
    List (ThingRef × List BlockPtr) :=
  m.filter (fun e => e.fst ≠ k)

/-- `NewThings` allocates `maxThings + 1` slots, slot 0 is the nil slot. -/
def NewThings (maxThings : Nat) : Things :=
  { maxThings := maxThings + 1
    activeThings := 0
    things := fun _ => Thing.zero
    used := fun _ => false
    generations := fun _ => 0
    insideLists := [] }

/-- `isNotNil` checks that the ref is not `NilRef` and not out of bounds. -/
def Things.isNotNil (ts : Things) (ref : ThingRef) : Bool :=
  decide (0 < ref.idx) && decide (ref.idx < ts.maxThings)

/-- `isAlive` checks that the slot is in use and the generation is current. -/
def Things.isAlive (ts : Things) (ref : ThingRef) : Bool :=
  let dead := decide (ts.used ref.idx = false) ||
    decide (ref.generation ≠ ts.generations ref.idx)
  !dead

/-- `IsActive` is the public liveness check. -/
def Things.IsActive (ts : Things) (ref : ThingRef) : Bool :=
  ts.isNotNil ref && ts.isAlive ref

/-- The scan of `findEmpty` from index `i`; the first argument only
bounds the structural recursion and any bound of at least
`maxThings - i` renders the source loop exactly. -/
def Things.findEmptyAux (ts : Things) : Nat → Nat → ThingRef
  | 0, _ => NilRef
  | fuel + 1, i =>
    if i < ts.maxThings then
      if ts.used i = false then ⟨i, ts.generations i⟩
      else ts.findEmptyAux fuel (i + 1)
    else NilRef

/-- `findEmpty` scans slots 1.. for an unused one, `NilRef` if none. -/
def Things.findEmpty (ts : Things) : ThingRef :=
  ts.findEmptyAux ts.maxThings 1

/-- `New` creates a new Thing and returns its reference and the new
arena state.  Note that on an exhausted arena `findEmpty` returns
`NilRef` and the writes below then hit the reserved slot 0. -/
def Things.New (ts : Things) (t : Thing) : ThingRef × Things :=
  let ref := ts.findEmpty
  (ref,
    { ts with
      used := upd ts.used ref.idx true
      things := upd ts.things ref.idx t
      activeThings := ts.activeThings + 1 })

/-- `get`: the record behind an active reference, else a zero value
(the source returns a pointer to a fresh zero temporary). -/
def Things.get (ts : Things) (ref : ThingRef) : Thing :=
  if ts.isNotNil ref && ts.isAlive ref then ts.things ref.idx else Thing.zero

/-- `Get` is `get` plus a (nil-guarded) diagnostic; same value. -/
def Things.Get (ts : Things) (ref : ThingRef) : Thing :=
  if ts.isNotNil ref && ts.isAlive ref then ts.things ref.idx else Thing.zero

/-- Dereference a block pointer (see the header for the temp case). -/
def Things.blockRead (ts : Things) : BlockPtr → ListData
  | .slot i => (ts.things i).ld
  | .temp => ListData.zero

/-- Write through a block pointer. -/
def Things.blockWrite (ts : Things) : BlockPtr → ListData → Things
  | .slot i, b =>
      { ts with things := upd ts.things i { ts.things i with ld := b } }
  | .temp, _ => ts

/-- The block at arena slot `s`. -/
def ldAt (ts : Things) (s : Nat) : ListData :=
  ts.blockRead (.slot s)

/-- Record a block pointer for `k` in the membership tracker
(`insideLists[k] = append(insideLists[k], ptr)`). -/
def Things.ilAdd (ts : Things) (k : ThingRef) (p : BlockPtr) : Things :=
  { ts with insideLists := mapSet ts.insideLists k (mapGet ts.insideLists k ++ [p]) }

/-- `getListDataFromThing`: resolve a reference with `get` and take the
embedded block; a dead or nil reference yields a pointer into the
escaped temporary. -/
def Things.getListDataFromThing (ts : Things) (ref : ThingRef) : BlockPtr :=
  if ts.isNotNil ref && ts.isAlive ref then .slot ref.idx else .temp

/-- The arena iterator `Things.Each`, with the `remaining` early stop,
as the list of yielded pairs (index order, slot 0 included when used). -/
def Things.eachAux (ts : Things) : Nat → Nat → Nat → List (ThingRef × Thing)
  | 0, _, _ => []
  | fuel + 1, rem, i =>
    if i < ts.maxThings then
      if rem = 0 then []
      else if ts.used i then
        (⟨i, ts.generations i⟩, ts.things i) :: ts.eachAux fuel (rem - 1) (i + 1)
      else ts.eachAux fuel rem (i + 1)
    else []

def Things.EachList (ts : Things) : List (ThingRef × Thing) :=
  ts.eachAux ts.maxThings ts.activeThings 0

namespace TList

/-- `List.PopSelf` on the block behind `curr`. -/
def PopSelf (ts : Things) (curr : BlockPtr) : Things :=
  let c0 := ts.blockRead curr
  if c0.owner = NilRef then ts
  else if c0.first = NilRef then ts
  else
    let nextP := ts.getListDataFromThing c0.next
    let currRef := (ts.blockRead nextP).prev
    if c0.next = currRef then
      ts.blockWrite curr ListData.zero
    else
      let firstP := ts.getListDataFromThing c0.first
      let prevP := ts.getListDataFromThing c0.prev
      -- prev.next = curr.next
      let t1 := ts.blockWrite prevP
        { ts.blockRead prevP with next := (ts.blockRead curr).next }
      -- next.prev = curr.prev
      let t2 := t1.blockWrite nextP
        { t1.blockRead nextP with prev := (t1.blockRead curr).prev }
      -- if removing first element, move head
      let t3 := if currRef = (t2.blockRead curr).first then
          t2.blockWrite curr
            { t2.blockRead curr with first := (t2.blockRead curr).next }
        else t2
      -- if removing last element, update first.prev
      let t4 := if currRef = (t3.blockRead firstP).prev then
          t3.blockWrite firstP
            { t3.blockRead firstP with prev := (t3.blockRead curr).prev }
        else t3
      t4.blockWrite curr ListData.zero

/-- `List.Init` on the block at slot `s` with owner reference `selfR`.
The source also computes and validates the field offset; with the
single embedded block of this specialisation the offset is the fixed
one and the validation cannot fail. -/
def Init (ts : Things) (s : Nat) (selfR : ThingRef) : Things :=
  if selfR = NilRef then ts
  else if (ldAt ts s).owner ≠ NilRef then ts
  else
    ts.blockWrite (.slot s)
      { ldAt ts s with isInitialized := true, owner := selfR, things := true }

/-- The body of `List.append` once its guard has passed. -/
def appendCore (ts : Things) (s : Nat) (newRef : ThingRef) : Things :=
  let newP := ts.getListDataFromThing newRef
  -- membership tracker: must be popped from list before deletion
  let t0 := ts.ilAdd newRef newP
  -- newThing.things / newThing.offset are the plumbing replaced by the
  -- embedding; newThing.owner = curr.owner
  let t1 := t0.blockWrite newP
    { t0.blockRead newP with things := true, owner := (ldAt t0 s).owner }
  let c := ldAt t1 s
  if c.first = NilRef ∧ c.next = NilRef ∧ c.prev = NilRef then
    -- the only thing in the list: links to itself, head updated
    let t2 := t1.blockWrite newP
      { t1.blockRead newP with first := newRef, next := newRef, prev := newRef }
    t2.blockWrite (.slot s)
      { ldAt t2 s with first := newRef, next := newRef, prev := newRef }
  else
    let firstP := t1.getListDataFromThing c.first
    let last := (t1.blockRead firstP).prev
    let lastP := t1.getListDataFromThing last
    -- Last <-> New <-> First
    let b1 := t1.blockWrite newP
      { t1.blockRead newP with first := (ldAt t1 s).first }
    let b2 := b1.blockWrite newP
      { b1.blockRead newP with prev := last }
    let b3 := b2.blockWrite newP
      { b2.blockRead newP with next := (ldAt b2 s).first }
    -- update neighbors
    let b4 := b3.blockWrite lastP
      { b3.blockRead lastP with next := newRef }
    b4.blockWrite firstP
      { b4.blockRead firstP with prev := newRef }

/-- `List.append` with the logger flag `lp`; the guard path calls the
logger without a nil check, so it panics (`none`) when `lp = false`. -/
def append (lp : Bool) (ts : Things) (s : Nat) (newRef : ThingRef) :
    Option Things :=
  if !(ldAt ts s).isInitialized || !ts.isNotNil newRef || !ts.isAlive newRef then
    if lp then some ts else none
  else some (appendCore ts s newRef)

/-- `List.Append`: append each reference in turn. -/
def Append (lp : Bool) (ts : Things) (s : Nat) (refs : List ThingRef) :
    Option Things :=
  refs.foldlM (fun t r => append lp t s r) ts

/-- `List.InsertNext` on the block at slot `s`.  The three diagnostic
checks of the source do not return early.  When the block's arena
pointer is nil the source then dereferences it (through
`getListDataFromThing` for a reference with positive index, through the
`insideLists` access otherwise): a nil-pointer panic, `none` here. -/
def InsertNext (ts : Things) (s : Nat) (newRef : ThingRef) : Option Things :=
  if (ldAt ts s).things = false then none
  else
    let newP := ts.getListDataFromThing newRef
    -- must be popped from list before Thing is deleted
    let t0 := ts.ilAdd newRef newP
    let nextP := t0.getListDataFromThing (ldAt t0 s).next
    let currThingRef := (t0.blockRead nextP).prev
    -- insert
    let t1 := t0.blockWrite newP
      { t0.blockRead newP with next := (ldAt t0 s).next }
    let t2 := t1.blockWrite newP
      { t1.blockRead newP with prev := currThingRef }
    let t3 := t2.blockWrite nextP
      { t2.blockRead nextP with prev := newRef }
    let t4 := t3.blockWrite (.slot s)
      { ldAt t3 s with next := newRef }
    -- check if inserted after last element
    let firstP := t4.getListDataFromThing (ldAt t4 s).first
    some (if (ldAt t4 s).next = (ldAt t4 s).first then
      t4.blockWrite firstP { t4.blockRead firstP with prev := newRef }
    else t4)

/-- The traversal of `List.Each` from `current`, stopping after the
yield whose successor is `firstR` again.  The source loop has no other
exit; `fuel` bounds the modelled traversal and is chosen large enough
that any traversal that does revisit `firstR` within `maxThings` yields
is rendered exactly (a traversal that exhausts the fuel diverges in
the source). -/
def eachListAux (ts : Things) (firstR : ThingRef) :
    ThingRef → Nat → List (ThingRef × Thing)
  | _, 0 => []
  | current, fuel + 1 =>
    let pair := (current, ts.get current)
    let nxt := (ts.blockRead (ts.getListDataFromThing current)).next
    if nxt = firstR then [pair]
    else pair :: eachListAux ts firstR nxt fuel

/-- `List.Each` on the block at slot `s`, as the list of yielded pairs. -/
def EachL (ts : Things) (s : Nat) : List (ThingRef × Thing) :=
  let c := ldAt ts s
  if c.isInitialized = false then []
  else eachListAux ts c.first c.first (ts.maxThings + 1)

/-- `List.Count` counts the yields of `Each`. -/
def Count (ts : Things) (s : Nat) : Nat :=
  if (ldAt ts s).isInitialized = false then 0
  else (EachL ts s).length

/-- `List.Owner`. -/
def Owner (ts : Things) (s : Nat) : ThingRef :=
  (ldAt ts s).owner

/-- `List.First` resolves `curr.first` through `curr.things.get`; when
the arena pointer is nil the short-circuit in `isNotNil` avoids the
dereference only for a zero index, otherwise it is a panic (`none`). -/
def First (ts : Things) (s : Nat) : Option Thing :=
  let c := ldAt ts s
  if c.things then some (ts.get c.first)
  else if 0 < c.first.idx then none
  else some Thing.zero

end TList

/-- `Things.Del`: when the reference is active, pop it from every block
recorded for it in the membership tracker (skipping already-zero
blocks), drop its tracker entry, free the slot, bump the generation
(uint32), copy the nil slot into it and decrement the active count
(the decrement is guarded by `IsActive`, so it never underflows in a
reachable state).  An inactive reference is a logged no-op. -/
def Things.Del (ts : Things) (ref : ThingRef) : Things :=
  if ts.IsActive ref then
    let ptrs := mapGet ts.insideLists ref
    let t1 := ptrs.foldl
      (fun t p => if t.blockRead p ≠ ListData.zero then TList.PopSelf t p else t) ts
    let t2 := { t1 with insideLists := mapDel t1.insideLists ref }
    { t2 with
      used := upd t2.used ref.idx false
      generations := upd t2.generations ref.idx ((t2.generations ref.idx + 1) % U32)
      things := upd t2.things ref.idx (t2.things 0)
      activeThings := t2.activeThings - 1 }
  else ts

/-! ### Basic lemmas about the embedding -/

theorem blockWrite_used (ts : Things) (p : BlockPtr) (b : ListData) :
    (ts.blockWrite p b).used = ts.used := by cases p <;> rfl

theorem blockWrite_generations (ts : Things) (p : BlockPtr) (b : ListData) :
    (ts.blockWrite p b).generations = ts.generations := by cases p <;> rfl

theorem blockWrite_maxThings (ts : Things) (p : BlockPtr) (b : ListData) :
    (ts.blockWrite p b).maxThings = ts.maxThings := by cases p <;> rfl

theorem blockWrite_activeThings (ts : Things) (p : BlockPtr) (b : ListData) :
    (ts.blockWrite p b).activeThings = ts.activeThings := by cases p <;> rfl

theorem blockWrite_payload (ts : Things) (p : BlockPtr) (b : ListData) (j : Nat) :
    ((ts.blockWrite p b).things j).payload = (ts.things j).payload := by
  cases p with
  | slot i =>
      simp only [Things.blockWrite, upd]
      split <;> simp_all
  | temp => rfl

theorem isActive_iff (ts : Things) (r : ThingRef) :
    ts.IsActive r = true ↔
      0 < r.idx ∧ r.idx < ts.maxThings ∧ ts.used r.idx = true ∧
      r.generation = ts.generations r.idx := by
  simp [Things.IsActive, Things.isNotNil, Things.isAlive]
  tauto

theorem isNotNil_ne_nilref (ts : Things) (r : ThingRef)
    (h : ts.isNotNil r = true) : r ≠ NilRef := by
  intro he
  subst he
  simp [Things.isNotNil, NilRef] at h

theorem gldft_of_valid (ts : Things) (r : ThingRef)
    (h1 : ts.isNotNil r = true) (h2 : ts.isAlive r = true) :
    ts.getListDataFromThing r = .slot r.idx := by
  simp [Things.getListDataFromThing, h1, h2]

theorem ldAt_blockWrite_slot (ts : Things) (i : Nat) (b : ListData) (j : Nat) :
    ldAt (ts.blockWrite (.slot i) b) j = if j = i then b else ldAt ts j := by
  simp only [ldAt, Things.blockWrite, Things.blockRead, upd]
  split <;> simp

theorem ldAt_set_insideLists (ts : Things) (m : List (ThingRef × List BlockPtr)) (j : Nat) :
    ldAt { ts with insideLists := m } j = ldAt ts j := rfl

/-! ### Concrete scenarios used by several claims -/

/-- Capacity-3 arena with three live records (the scenario of the spec:
refs A = slot 1, B = slot 2, C = slot 3). -/
def arena3 : Things :=
  ((((NewThings 3).New (mkThing 10)).snd.New (mkThing 20)).snd.New (mkThing 30)).snd

def refA : ThingRef := ⟨1, 0⟩
def refB : ThingRef := ⟨2, 0⟩
def refC : ThingRef := ⟨3, 0⟩

/-- The list field on A's record bound to owner A. -/
def arena3i : Things := TList.Init arena3 1 refA

/-- After `Append(B, C)` on A's list. -/
def arena3l : Things := (TList.Append true arena3i 1 [refB, refC]).getD arena3i

/-- After `Del(B)` (B is the head member of A's list). -/
def arena3d : Things := arena3l.Del refB

/-- Capacity-2 arena with two live records (slots 1 and 2). -/
def arena2 : Things :=
  (((NewThings 2).New (mkThing 1)).snd.New (mkThing 2)).snd

/-- Capacity-1 arena, one live record, its list field initialized. -/
def arena1i : Things :=
  TList.Init (((NewThings 1).New (mkThing 5)).snd) 1 ⟨1, 0⟩

/-! ### Claim theorems -/

/-- C6: for every reference whatsoever — nil, out of range, stale or
active — `Get` is total (never panics) and returns the stored record
exactly when the reference is active and the one stable zero default
otherwise; it also agrees with the quiet variant `get`. -/
theorem c6_get_total_default (ts : Things) (ref : ThingRef) :
    ts.Get ref = (if ts.IsActive ref = true then ts.things ref.idx else Thing.zero) ∧
    ts.Get ref = ts.get ref := by
  constructor
  · unfold Things.Get Things.IsActive
    by_cases h : (ts.isNotNil ref && ts.isAlive ref) = true <;> simp [h]
  · rfl

/-- C7 (code bug): `InsertNext` documents itself as doing nothing on an
empty or uninitialized list, but the diagnostic branches do not return.
On a never-initialized block the source then dereferences the nil arena
pointer (a panic, `none` in the model); on an initialized empty list it
records the reference in the membership tracker and rewires the block's
`next` field to the inserted reference instead of leaving the state
unchanged. -/
theorem c7_insertnext_not_noop :
    TList.InsertNext arena2 1 ⟨2, 0⟩ = none ∧
    (ldAt (TList.Init arena2 1 ⟨1, 0⟩) 1).next = NilRef ∧
    (TList.InsertNext (TList.Init arena2 1 ⟨1, 0⟩) 1 ⟨2, 0⟩).map
      (fun t => (ldAt t 1).next) = some ⟨2, 0⟩ ∧
    (TList.InsertNext (TList.Init arena2 1 ⟨1, 0⟩) 1 ⟨2, 0⟩).map
      (fun t => mapGet t.insideLists ⟨2, 0⟩) = some [.slot 2] := by
  refine ⟨rfl, rfl, rfl, rfl⟩

/-- C8 (code bug): the guard branch of `List.append` calls the logger
without a nil check.  With the diagnostic sink absent (`lp = false`)
appending a nil reference panics (`none`) instead of being the logged
no-op it is with the sink present, so behaviour is not independent of
the sink; on a passing input the two agree. -/
theorem c8_append_logger_dependent :
    TList.append false arena1i 1 NilRef = none ∧
    TList.append true arena1i 1 NilRef = some arena1i ∧
    TList.append false arena1i 1 ⟨1, 0⟩ = TList.append true arena1i 1 ⟨1, 0⟩ := by
  refine ⟨rfl, rfl, rfl⟩

/-- C2 (code bug): deleting the head member of a list does not detach
it consistently.  Before `Del(B)` A's list reports count 2 and yields
B; afterwards B is inactive but A's block still has `first = B`, the
traversal still yields the stale B followed by nil references and never
returns to the head (here it runs to the fuel bound `maxThings + 1`),
so the list does not report count k-1 = 1. -/
theorem c2_del_head_member_corrupts :
    TList.Count arena3l 1 = 2 ∧
    (TList.EachL arena3l 1).map Prod.fst = [refB, refC] ∧
    arena3d.IsActive refB = false ∧
    (ldAt arena3d 1).first = refB ∧
    refB ∈ (TList.EachL arena3d 1).map Prod.fst ∧
    TList.Count arena3d 1 ≠ 1 := by
  refine ⟨rfl, rfl, rfl, rfl, by decide, by decide⟩

/-- C3 counterexample: in the spec's capacity-3 scenario the owner A is
not a member of its own list, so after `Append(B, C)` the count is 2,
not 3. -/
theorem c3_counterexample :
    TList.Append true arena3i 1 [refB, refC] = some arena3l ∧
    TList.Count arena3l 1 = 2 ∧ ¬ TList.Count arena3l 1 = 3 := by
  refine ⟨rfl, rfl, by decide⟩

/-- C3 amended: the scenario as the code actually behaves.  After
`Append(B, C)` the list counts 2 and `Each` yields B then C (starting
at B, not at A).  After `Free(B)` the list head still names the freed
B: `Each` yields the stale B and then nil references without ever
returning to the head (fuel bound yields), and `Count` is the fuel
bound rather than 1. -/
theorem c3_amended_scenario :
    TList.Count arena3l 1 = 2 ∧
    (TList.EachL arena3l 1).map Prod.fst = [refB, refC] ∧
    arena3d.IsActive refB = false ∧
    (ldAt arena3d 1).first = refB ∧
    (TList.EachL arena3d 1).map Prod.fst = refB :: List.replicate 4 NilRef ∧
    TList.Count arena3d 1 = arena3d.maxThings + 1 := by
  refine ⟨rfl, rfl, rfl, rfl, by decide, rfl⟩

/-! ### C9: PopSelf on the sole member of a one-element list -/

theorem popself_single (ts : Things) (s : Nat) (r : ThingRef)
    (hidx : r.idx = s)
    (hact : ts.IsActive r = true)
    (howner : (ldAt ts s).owner ≠ NilRef)
    (hf : (ldAt ts s).first = r)
    (hn : (ldAt ts s).next = r)
    (hp : (ldAt ts s).prev = r) :
    TList.PopSelf ts (.slot s) = ts.blockWrite (.slot s) ListData.zero := by
  have hand : ts.isNotNil r = true ∧ ts.isAlive r = true := by
    have h := hact
    unfold Things.IsActive at h
    exact (Bool.and_eq_true _ _).mp h
  have hnil : r ≠ NilRef := isNotNil_ne_nilref ts r hand.1
  unfold TList.PopSelf
  have hread : ts.blockRead (.slot s) = ldAt ts s := rfl
  rw [hread]
  rw [if_neg howner, if_neg (by rw [hf]; exact hnil)]
  rw [hn, gldft_of_valid ts r hand.1 hand.2, hidx]
  simp only [hread, hp, eq_self_iff_true, if_true]

/-- C9: popping the sole member of a one-element list (its control
block links to itself) resets that control block to the uninitialized
zero state; afterwards `Count` on it is 0 and `First` / `Owner` degrade
to the zero record and the nil reference. -/
theorem c9_popself_sole_member (ts : Things) (s : Nat) (r : ThingRef)
    (hidx : r.idx = s)
    (hact : ts.IsActive r = true)
    (howner : (ldAt ts s).owner ≠ NilRef)
    (hf : (ldAt ts s).first = r)
    (hn : (ldAt ts s).next = r)
    (hp : (ldAt ts s).prev = r) :
    ldAt (TList.PopSelf ts (.slot s)) s = ListData.zero ∧
    TList.Count (TList.PopSelf ts (.slot s)) s = 0 ∧
    TList.First (TList.PopSelf ts (.slot s)) s = some Thing.zero ∧
    TList.Owner (TList.PopSelf ts (.slot s)) s = NilRef := by
  have hpop := popself_single ts s r hidx hact howner hf hn hp
  have hz : ldAt (TList.PopSelf ts (.slot s)) s = ListData.zero := by
    rw [hpop, ldAt_blockWrite_slot, if_pos rfl]
  refine ⟨hz, ?_, ?_, ?_⟩
  · simp [TList.Count, hz, ListData.zero]
  · simp [TList.First, hz, ListData.zero, NilRef]
  · simp [TList.Owner, hz, ListData.zero]

/-- Capacity-1 arena whose single record's list field owns itself as
the sole member: a one-element list. -/
def sole1 : Things :=
  let base := TList.Init (((NewThings 1).New (mkThing 7)).snd) 1 ⟨1, 0⟩
  (TList.Append true base 1 [⟨1, 0⟩]).getD base

theorem c9_popself_sole_member_witness :
    ((⟨1, 0⟩ : ThingRef).idx = 1 ∧
      sole1.IsActive ⟨1, 0⟩ = true ∧
      (ldAt sole1 1).owner ≠ NilRef ∧
      (ldAt sole1 1).first = ⟨1, 0⟩ ∧
      (ldAt sole1 1).next = ⟨1, 0⟩ ∧
      (ldAt sole1 1).prev = ⟨1, 0⟩ ∧
      TList.Count sole1 1 = 1) ∧
    (ldAt (TList.PopSelf sole1 (.slot 1)) 1 = ListData.zero ∧
      TList.Count (TList.PopSelf sole1 (.slot 1)) 1 = 0 ∧
      TList.First (TList.PopSelf sole1 (.slot 1)) 1 = some Thing.zero ∧
      TList.Owner (TList.PopSelf sole1 (.slot 1)) 1 = NilRef) :=
  ⟨by decide,
    c9_popself_sole_member sole1 1 ⟨1, 0⟩ rfl (by decide) (by decide) rfl rfl rfl⟩

/-! ### C1: Del invalidates the reference and bumps the generation -/

theorem popSelf_used (ts : Things) (p : BlockPtr) :
    (TList.PopSelf ts p).used = ts.used := by
  unfold TList.PopSelf
  dsimp only
  split
  · rfl
  split
  · rfl
  split
  · exact blockWrite_used ..
  · simp only [blockWrite_used, apply_ite Things.used, ite_self]

theorem popSelf_generations (ts : Things) (p : BlockPtr) :
    (TList.PopSelf ts p).generations = ts.generations := by
  unfold TList.PopSelf
  dsimp only
  split
  · rfl
  split
  · rfl
  split
  · exact blockWrite_generations ..
  · simp only [blockWrite_generations, apply_ite Things.generations, ite_self]

theorem popSelf_maxThings (ts : Things) (p : BlockPtr) :
    (TList.PopSelf ts p).maxThings = ts.maxThings := by
  unfold TList.PopSelf
  dsimp only
  split
  · rfl
  split
  · rfl
  split
  · exact blockWrite_maxThings ..
  · simp only [blockWrite_maxThings, apply_ite Things.maxThings, ite_self]

theorem popFold_used (l : List BlockPtr) (ts : Things) :
    (l.foldl (fun t p => if t.blockRead p ≠ ListData.zero then TList.PopSelf t p else t) ts).used
      = ts.used := by
  induction l generalizing ts with
  | nil => rfl
  | cons p l ih =>
    simp only [List.foldl_cons]
    rw [ih]
    split
    · exact popSelf_used ..
    · rfl

theorem popFold_generations (l : List BlockPtr) (ts : Things) :
    (l.foldl (fun t p => if t.blockRead p ≠ ListData.zero then TList.PopSelf t p else t) ts).generations
      = ts.generations := by
  induction l generalizing ts with
  | nil => rfl
  | cons p l ih =>
    simp only [List.foldl_cons]
    rw [ih]
    split
    · exact popSelf_generations ..
    · rfl

theorem del_used (ts : Things) (r : ThingRef) (hact : ts.IsActive r = true) :
    (ts.Del r).used = upd ts.used r.idx false := by
  unfold Things.Del
  rw [if_pos hact]
  show upd ((mapGet ts.insideLists r).foldl _ ts).used r.idx false = _
  rw [popFold_used]

theorem del_generations (ts : Things) (r : ThingRef) (hact : ts.IsActive r = true) :
    (ts.Del r).generations =
      upd ts.generations r.idx ((ts.generations r.idx + 1) % U32) := by
  unfold Things.Del
  rw [if_pos hact]
  show upd ((mapGet ts.insideLists r).foldl _ ts).generations r.idx
    ((((mapGet ts.insideLists r).foldl _ ts).generations r.idx + 1) % U32) = _
  rw [popFold_generations]

theorem findEmptyAux_gen (ts : Things) :
    ∀ fuel i, ts.findEmptyAux fuel i = NilRef ∨
      (ts.findEmptyAux fuel i).generation =
        ts.generations (ts.findEmptyAux fuel i).idx := by
  intro fuel
  induction fuel with
  | zero => intro i; exact Or.inl rfl
  | succ fuel ih =>
    intro i
    unfold Things.findEmptyAux
    split
    · split
      · right; rfl
      · exact ih (i + 1)
    · exact Or.inl rfl

/-- C1: deleting an active reference frees its slot, bumps the slot's
generation by exactly one (as a uint32), makes the reference inactive
with `Get` degrading to the zero default, and any later `New` that
hands out the same slot index carries the bumped generation, so it
differs from the freed reference's generation and the freed reference
stays inactive (resolving to the default) beside the new record. -/
theorem c1_del_invalidates (ts : Things) (r : ThingRef)
    (hact : ts.IsActive r = true) (hg : ts.generations r.idx < U32) :
    (ts.Del r).used r.idx = false ∧
    (ts.Del r).generations r.idx = (ts.generations r.idx + 1) % U32 ∧
    (ts.generations r.idx + 1 < U32 →
      (ts.Del r).generations r.idx = ts.generations r.idx + 1) ∧
    (ts.Del r).IsActive r = false ∧
    (ts.Del r).Get r = Thing.zero ∧
    (∀ (ts2 : Things) (t : Thing),
      ts2.generations r.idx = (ts.generations r.idx + 1) % U32 →
      ((ts2.New t).fst.idx = r.idx →
        (ts2.New t).fst.generation ≠ r.generation) ∧
      (ts2.New t).snd.IsActive r = false ∧
      (ts2.New t).snd.Get r = Thing.zero) := by
  obtain ⟨hpos, hlt, hused, hgen⟩ := (isActive_iff ts r).mp hact
  have hU : U32 = 4294967296 := rfl
  have hmod : (ts.generations r.idx + 1) % U32 ≠ ts.generations r.idx := by
    rcases Nat.lt_or_ge (ts.generations r.idx + 1) U32 with h | h
    · rw [Nat.mod_eq_of_lt h]; omega
    · have he : ts.generations r.idx + 1 = U32 := by omega
      rw [he, Nat.mod_self]; omega
  have hu : (ts.Del r).used r.idx = false := by
    rw [del_used ts r hact]; simp [upd]
  have hgd : (ts.Del r).generations r.idx = (ts.generations r.idx + 1) % U32 := by
    rw [del_generations ts r hact]; simp [upd]
  have halx : (ts.Del r).isAlive r = false := by
    simp [Things.isAlive, hu]
  refine ⟨hu, hgd, ?_, ?_, ?_, ?_⟩
  · intro hlt2; rw [hgd, Nat.mod_eq_of_lt hlt2]
  · simp [Things.IsActive, halx]
  · simp [Things.Get, halx]
  · intro ts2 t h2
    have hne : r.generation ≠ (ts2.New t).snd.generations r.idx := by
      show r.generation ≠ ts2.generations r.idx
      rw [h2, ← hgen]
      exact fun he => hmod (by rw [← hgen, ← he])
    have hal2 : (ts2.New t).snd.isAlive r = false := by
      simp [Things.isAlive, hne]
    refine ⟨?_, ?_, ?_⟩
    · intro hidx2
      rcases findEmptyAux_gen ts2 ts2.maxThings 1 with hnil | hg2
      · exfalso
        have h3 : (ts2.New t).fst = NilRef := hnil
        rw [h3] at hidx2
        have h0 : (0 : Nat) = r.idx := hidx2
        omega
      · show (ts2.findEmpty).generation ≠ r.generation
        have : (ts2.findEmpty).generation = ts2.generations r.idx := by
          rw [show ts2.findEmpty = ts2.findEmptyAux ts2.maxThings 1 from rfl, hg2]
          exact congrArg ts2.generations hidx2
        rw [this, h2, hgen]
        exact hmod
    · simp [Things.IsActive, hal2]
    · simp [Things.Get, hal2]

theorem c1_del_invalidates_witness :
    (arena2.IsActive ⟨1, 0⟩ = true ∧ arena2.generations 1 < U32) ∧
    ((arena2.Del ⟨1, 0⟩).used 1 = false ∧
      (arena2.Del ⟨1, 0⟩).generations 1 = (arena2.generations 1 + 1) % U32 ∧
      (arena2.generations 1 + 1 < U32 →
        (arena2.Del ⟨1, 0⟩).generations 1 = arena2.generations 1 + 1) ∧
      (arena2.Del ⟨1, 0⟩).IsActive ⟨1, 0⟩ = false ∧
      (arena2.Del ⟨1, 0⟩).Get ⟨1, 0⟩ = Thing.zero ∧
      (∀ (ts2 : Things) (t : Thing),
        ts2.generations 1 = (arena2.generations 1 + 1) % U32 →
        ((ts2.New t).fst.idx = 1 →
          (ts2.New t).fst.generation ≠ (⟨1, 0⟩ : ThingRef).generation) ∧
        (ts2.New t).snd.IsActive ⟨1, 0⟩ = false ∧
        (ts2.New t).snd.Get ⟨1, 0⟩ = Thing.zero)) :=
  ⟨⟨by decide, by decide⟩, c1_del_invalidates arena2 ⟨1, 0⟩ (by decide) (by decide)⟩

/-! ### C10: New on a full arena hits the reserved slot 0 -/

theorem findEmptyAux_full (ts : Things) :
    ∀ fuel i, (∀ j, i ≤ j → j < ts.maxThings → ts.used j = true) →
      ts.findEmptyAux fuel i = NilRef := by
  intro fuel
  induction fuel with
  | zero => intro i _; rfl
  | succ fuel ih =>
    intro i h
    unfold Things.findEmptyAux
    split
    · rename_i hi
      rw [if_neg (by rw [h i le_rfl hi]; simp)]
      exact ih (i + 1) (fun j h1 h2 => h j (by omega) h2)
    · rfl

theorem eachAux_succ (ts : Things) (fuel rem i : Nat) :
    ts.eachAux (fuel + 1) rem i =
      if i < ts.maxThings then
        if rem = 0 then []
        else if ts.used i then
          (⟨i, ts.generations i⟩, ts.things i) :: ts.eachAux fuel (rem - 1) (i + 1)
        else ts.eachAux fuel rem (i + 1)
      else [] := rfl

theorem eachAux_rem_zero (ts : Things) :
    ∀ fuel i, ts.eachAux fuel 0 i = [] := by
  intro fuel
  induction fuel with
  | zero => intro i; rfl
  | succ fuel _ =>
    intro i
    unfold Things.eachAux
    split <;> simp

theorem eachAux_congr (ts ts2 : Things)
    (hmax : ts2.maxThings = ts.maxThings)
    (hu : ∀ j, 1 ≤ j → ts2.used j = ts.used j)
    (hg : ∀ j, 1 ≤ j → ts2.generations j = ts.generations j)
    (ht : ∀ j, 1 ≤ j → ts2.things j = ts.things j) :
    ∀ fuel rem i, 1 ≤ i → ts2.eachAux fuel rem i = ts.eachAux fuel rem i := by
  intro fuel
  induction fuel with
  | zero => intro rem i _; rfl
  | succ fuel ih =>
    intro rem i hi
    unfold Things.eachAux
    rw [hmax]
    split
    · split
      · rfl
      · rw [hu i hi]
        split
        · rw [hg i hi, ht i hi, ih (rem - 1) (i + 1) (by omega)]
        · rw [ih rem (i + 1) (by omega)]
    · rfl

/-- C10: when `New` is called on an arena with no free slot it returns
the nil reference but still marks the reserved slot 0 as used, stores
the record there and increments the active counter, so the arena-level
`Each` afterwards yields one extra pair whose reference has index 0. -/
theorem c10_new_on_full_arena (ts : Things) (t : Thing)
    (hlen : 1 ≤ ts.maxThings)
    (h0 : ts.used 0 = false)
    (hfull : ∀ i, 1 ≤ i → i < ts.maxThings → ts.used i = true) :
    (ts.New t).fst = NilRef ∧
    (ts.New t).snd.used 0 = true ∧
    (ts.New t).snd.activeThings = ts.activeThings + 1 ∧
    (ts.New t).snd.EachList = (⟨0, ts.generations 0⟩, t) :: ts.EachList := by
  have hfe : ts.findEmpty = NilRef :=
    findEmptyAux_full ts ts.maxThings 1 (fun j h1 h2 => hfull j h1 h2)
  have hfst : (ts.New t).fst = NilRef := hfe
  have hused : (ts.New t).snd.used = upd ts.used 0 true := by
    show upd ts.used (ts.findEmpty).idx true = _
    rw [hfe]
    rfl
  have hthings : (ts.New t).snd.things = upd ts.things 0 t := by
    show upd ts.things (ts.findEmpty).idx t = _
    rw [hfe]
    rfl
  have hgens : (ts.New t).snd.generations = ts.generations := rfl
  have hmax : (ts.New t).snd.maxThings = ts.maxThings := rfl
  have hact : (ts.New t).snd.activeThings = ts.activeThings + 1 := rfl
  refine ⟨hfst, by rw [hused]; simp [upd], hact, ?_⟩
  obtain ⟨m, hm⟩ : ∃ m, ts.maxThings = m + 1 := ⟨ts.maxThings - 1, by omega⟩
  have hcongr : ∀ rem i, 1 ≤ i →
      (ts.New t).snd.eachAux m rem i = ts.eachAux m rem i := by
    intro rem i hi
    refine eachAux_congr ts ((ts.New t).snd) hmax ?_ ?_ ?_ m rem i hi
    · intro j hj; rw [hused]; simp [upd]; omega
    · intro j _; rw [hgens]
    · intro j hj; rw [hthings]; simp [upd]; omega
  have hL : (ts.New t).snd.EachList =
      (⟨0, ts.generations 0⟩, t) :: ts.eachAux m ts.activeThings 1 := by
    show (ts.New t).snd.eachAux (ts.New t).snd.maxThings (ts.New t).snd.activeThings 0 = _
    rw [hmax, hact, hm, eachAux_succ]
    rw [if_pos (by rw [hmax, hm]; omega)]
    rw [if_neg (Nat.succ_ne_zero _)]
    rw [if_pos (by rw [hused]; simp [upd])]
    rw [hgens]
    rw [show (ts.New t).snd.things 0 = t by rw [hthings]; simp [upd]]
    rw [Nat.add_sub_cancel]
    rw [hcongr ts.activeThings 1 le_rfl]
  have hR : ts.EachList = ts.eachAux m ts.activeThings 1 := by
    show ts.eachAux ts.maxThings ts.activeThings 0 = _
    rw [hm, eachAux_succ]
    rw [if_pos (by omega)]
    rcases Nat.eq_zero_or_pos ts.activeThings with hz | hp
    · rw [hz, if_pos rfl, eachAux_rem_zero]
    · rw [if_neg (by omega), if_neg (by rw [h0]; simp)]
  rw [hL, hR]

/-- Capacity-1 arena with its single usable slot occupied (full). -/
def full1 : Things := ((NewThings 1).New (mkThing 4)).snd

theorem c10_new_on_full_arena_witness :
    (1 ≤ full1.maxThings ∧ full1.used 0 = false ∧
      (∀ i, 1 ≤ i → i < full1.maxThings → full1.used i = true)) ∧
    ((full1.New (mkThing 9)).fst = NilRef ∧
      (full1.New (mkThing 9)).snd.used 0 = true ∧
      (full1.New (mkThing 9)).snd.activeThings = full1.activeThings + 1 ∧
      (full1.New (mkThing 9)).snd.EachList =
        (⟨0, full1.generations 0⟩, mkThing 9) :: full1.EachList) :=
  ⟨⟨by decide, by decide, by
      intro i h1 h2
      have hm : full1.maxThings = 2 := rfl
      rw [hm] at h2
      have hi : i = 1 := by omega
      subst hi
      rfl⟩,
    c10_new_on_full_arena full1 (mkThing 9) (by decide) (by decide) (by
      intro i h1 h2
      have hm : full1.maxThings = 2 := rfl
      rw [hm] at h2
      have hi : i = 1 := by omega
      subst hi
      rfl)⟩

/-! ### C4: capacity N supports exactly N allocations -/

/-- The arena after `k` successive `New` calls with payloads `p 0`,
…, `p (k-1)` on a fresh capacity-`N` arena. -/
def fillK (N : Nat) (p : Nat → Thing) : Nat → Things
  | 0 => NewThings N
  | k + 1 => ((fillK N p k).New (p k)).snd

/-- The reference returned by the `(k+1)`-th `New` call. -/
def refK (N : Nat) (p : Nat → Thing) (k : Nat) : ThingRef :=
  ((fillK N p k).New (p k)).fst

theorem findEmptyAux_succ (ts : Things) (fuel i : Nat) :
    ts.findEmptyAux (fuel + 1) i =
      if i < ts.maxThings then
        if ts.used i = false then ⟨i, ts.generations i⟩
        else ts.findEmptyAux fuel (i + 1)
      else NilRef := rfl

theorem findEmptyAux_scan_hit (ts : Things) (k : Nat)
    (hu : ∀ j, ts.used j = decide (1 ≤ j ∧ j ≤ k))
    (hk : k + 1 < ts.maxThings) :
    ∀ fuel i, 1 ≤ i → i ≤ k + 1 → k + 1 - i < fuel →
      ts.findEmptyAux fuel i = ⟨k + 1, ts.generations (k + 1)⟩ := by
  intro fuel
  induction fuel with
  | zero => intro i _ _ h; omega
  | succ fuel ih =>
    intro i h1 h2 h3
    rw [findEmptyAux_succ, if_pos (by omega)]
    by_cases he : i = k + 1
    · subst he
      rw [if_pos (by rw [hu, decide_eq_false_iff_not]; omega)]
    · rw [if_neg (by
        rw [hu]
        simp only [decide_eq_false_iff_not, not_not]
        omega)]
      exact ih (i + 1) (by omega) (by omega) (by omega)

theorem findEmptyAux_scan_nil (ts : Things) (k : Nat)
    (hu : ∀ j, ts.used j = decide (1 ≤ j ∧ j ≤ k))
    (hk : ts.maxThings ≤ k + 1) :
    ∀ fuel i, 1 ≤ i → ts.findEmptyAux fuel i = NilRef := by
  intro fuel i h1
  exact findEmptyAux_full ts fuel i
    (fun j hj1 hj2 => by rw [hu, decide_eq_true_eq]; omega)

theorem fillK_char (N : Nat) (p : Nat → Thing) :
    ∀ k, k ≤ N →
      (fillK N p k).maxThings = N + 1 ∧
      (fillK N p k).generations = (fun _ => 0) ∧
      (∀ j, (fillK N p k).used j = decide (1 ≤ j ∧ j ≤ k)) ∧
      (∀ j, 1 ≤ j → j ≤ k → (fillK N p k).things j = p (j - 1)) := by
  intro k
  induction k with
  | zero =>
    intro _
    refine ⟨rfl, rfl, fun j => ?_, fun j h1 h2 => by omega⟩
    show false = decide (1 ≤ j ∧ j ≤ 0)
    rw [eq_comm, decide_eq_false_iff_not]
    omega
  | succ k ih =>
    intro hk
    obtain ⟨hmax, hgen, hu, ht⟩ := ih (by omega)
    have hfe : (fillK N p k).findEmpty = ⟨k + 1, 0⟩ := by
      have hs := findEmptyAux_scan_hit (fillK N p k) k hu (by rw [hmax]; omega)
        (fillK N p k).maxThings 1 le_rfl (by omega) (by rw [hmax]; omega)
      rw [show (fillK N p k).findEmpty
          = (fillK N p k).findEmptyAux (fillK N p k).maxThings 1 from rfl, hs,
        hgen]
    have husd : (fillK N p (k + 1)).used
        = upd (fillK N p k).used (k + 1) true := by
      show upd (fillK N p k).used ((fillK N p k).findEmpty).idx true = _
      rw [hfe]
    have hths : (fillK N p (k + 1)).things
        = upd (fillK N p k).things (k + 1) (p k) := by
      show upd (fillK N p k).things ((fillK N p k).findEmpty).idx (p k) = _
      rw [hfe]
    refine ⟨hmax, hgen, ?_, ?_⟩
    · intro j
      rw [husd]
      by_cases hj : j = k + 1
      · subst hj
        simp only [upd, eq_self_iff_true, if_true]
        rw [eq_comm, decide_eq_true_eq]
        omega
      · simp only [upd, if_neg hj, hu j]
        rw [decide_eq_decide]
        omega
    · intro j h1 h2
      rw [hths]
      by_cases hj : j = k + 1
      · subst hj
        simp only [upd, eq_self_iff_true, if_true, Nat.add_sub_cancel]
      · simp only [upd, if_neg hj]
        exact ht j h1 (by omega)

/-- C4: on a fresh capacity-`N` arena each of the first `N` `New` calls
returns the distinct non-nil active reference of the next free slot,
the `(N+1)`-th call returns the nil reference, and after that
exhausted call every one of the `N` references is still active and
`Get` still returns its stored record. -/
theorem c4_capacity_exhaustion (N : Nat) (p : Nat → Thing) (t : Thing) :
    (∀ k, k < N → refK N p k = ⟨k + 1, 0⟩) ∧
    (∀ j k, j < N → k < N → j ≠ k → refK N p j ≠ refK N p k) ∧
    (∀ k, k < N → refK N p k ≠ NilRef) ∧
    (∀ k, k < N → (fillK N p (k + 1)).IsActive ⟨k + 1, 0⟩ = true) ∧
    ((fillK N p N).New t).fst = NilRef ∧
    (∀ k, k < N →
      ((fillK N p N).New t).snd.IsActive ⟨k + 1, 0⟩ = true ∧
      ((fillK N p N).New t).snd.Get ⟨k + 1, 0⟩ = p k) := by
  have hrefK : ∀ k, k < N → refK N p k = ⟨k + 1, 0⟩ := by
    intro k hk
    obtain ⟨hmax, hgen, hu, _⟩ := fillK_char N p k (by omega)
    show ((fillK N p k).New (p k)).fst = _
    show (fillK N p k).findEmpty = _
    have hklt : k + 1 < (fillK N p k).maxThings := by rw [hmax]; omega
    have hfuel : k + 1 - 1 < (fillK N p k).maxThings := by rw [hmax]; omega
    have hs := findEmptyAux_scan_hit (fillK N p k) k hu hklt
      (fillK N p k).maxThings 1 le_rfl (by omega) hfuel
    rw [show (fillK N p k).findEmpty
        = (fillK N p k).findEmptyAux (fillK N p k).maxThings 1 from rfl, hs, hgen]
  obtain ⟨hmaxN, hgenN, huN, htN⟩ := fillK_char N p N le_rfl
  have hnil : ((fillK N p N).New t).fst = NilRef := by
    show (fillK N p N).findEmpty = NilRef
    exact findEmptyAux_scan_nil (fillK N p N) N huN (le_of_eq hmaxN)
      (fillK N p N).maxThings 1 le_rfl
  have hsndu : ((fillK N p N).New t).snd.used = upd (fillK N p N).used 0 true := by
    show upd (fillK N p N).used ((fillK N p N).findEmpty).idx true = _
    rw [show (fillK N p N).findEmpty = NilRef from hnil]
    rfl
  have hsndt : ((fillK N p N).New t).snd.things
      = upd (fillK N p N).things 0 t := by
    show upd (fillK N p N).things ((fillK N p N).findEmpty).idx t = _
    rw [show (fillK N p N).findEmpty = NilRef from hnil]
    rfl
  have hsndg : ((fillK N p N).New t).snd.generations = (fillK N p N).generations := rfl
  have hsndm : ((fillK N p N).New t).snd.maxThings = (fillK N p N).maxThings := rfl
  have hactive : ∀ k, k < N →
      ((fillK N p N).New t).snd.IsActive ⟨k + 1, 0⟩ = true := by
    intro k hk
    rw [isActive_iff]
    refine ⟨?_, ?_, ?_, ?_⟩
    · show (0 : Nat) < k + 1
      omega
    · show (k + 1 : Nat) < ((fillK N p N).New t).snd.maxThings
      rw [hsndm, hmaxN]
      omega
    · show ((fillK N p N).New t).snd.used (k + 1) = true
      rw [hsndu]
      simp only [upd, if_neg (by omega : ¬ (k + 1 = 0)), huN, decide_eq_true_eq]
      omega
    · show (0 : Nat) = ((fillK N p N).New t).snd.generations (k + 1)
      rw [hsndg, hgenN]
  refine ⟨hrefK, ?_, ?_, ?_, hnil, ?_⟩
  · intro j k hj hk hne
    rw [hrefK j hj, hrefK k hk]
    intro he
    exact hne (by
      have h2 : j + 1 = k + 1 := congrArg ThingRef.idx he
      omega)
  · intro k hk
    rw [hrefK k hk]
    intro he
    have h2 : k + 1 = 0 := congrArg ThingRef.idx he
    omega
  · intro k hk
    obtain ⟨hmax1, hgen1, hu1, _⟩ := fillK_char N p (k + 1) (by omega)
    rw [isActive_iff]
    refine ⟨?_, ?_, ?_, ?_⟩
    · show (0 : Nat) < k + 1
      omega
    · show (k + 1 : Nat) < (fillK N p (k + 1)).maxThings
      rw [hmax1]
      omega
    · show (fillK N p (k + 1)).used (k + 1) = true
      rw [hu1, decide_eq_true_eq]
      omega
    · show (0 : Nat) = (fillK N p (k + 1)).generations (k + 1)
      rw [hgen1]
  · intro k hk
    refine ⟨hactive k hk, ?_⟩
    have hc := hactive k hk
    unfold Things.IsActive at hc
    obtain ⟨h1, h2⟩ := (Bool.and_eq_true _ _).mp hc
    have hGet : ((fillK N p N).New t).snd.Get ⟨k + 1, 0⟩
        = ((fillK N p N).New t).snd.things (k + 1) := by
      unfold Things.Get
      rw [h1, h2]
      rfl
    rw [hGet, hsndt]
    simp only [upd, if_neg (by omega : ¬ (k + 1 = 0))]
    have h3 := htN (k + 1) (by omega) (by omega)
    rw [h3, Nat.add_sub_cancel]

theorem c4_capacity_exhaustion_witness :
    refK 1 (fun _ => mkThing 3) 0 = ⟨1, 0⟩ ∧
    ((fillK 1 (fun _ => mkThing 3) 1).New (mkThing 9)).fst = NilRef ∧
    ((fillK 1 (fun _ => mkThing 3) 1).New (mkThing 9)).snd.IsActive ⟨1, 0⟩ = true ∧
    ((fillK 1 (fun _ => mkThing 3) 1).New (mkThing 9)).snd.Get ⟨1, 0⟩ = mkThing 3 :=
  ⟨(c4_capacity_exhaustion 1 (fun _ => mkThing 3) (mkThing 9)).1 0 (by decide),
    (c4_capacity_exhaustion 1 (fun _ => mkThing 3) (mkThing 9)).2.2.2.2.1,
    ((c4_capacity_exhaustion 1 (fun _ => mkThing 3) (mkThing 9)).2.2.2.2.2 0 (by decide)).1,
    ((c4_capacity_exhaustion 1 (fun _ => mkThing 3) (mkThing 9)).2.2.2.2.2 0 (by decide)).2⟩

/-! ### C5: appending k distinct live references builds a k-cycle -/

/-- One step of the `Each` traversal: resolve the block of `r` and read
its `next` field. -/
def stepNext (ts : Things) (r : ThingRef) : ThingRef :=
  (ts.blockRead (ts.getListDataFromThing r)).next

/-- The state after the appends of `List.Append` whose guards pass. -/
def appendFold (s : Nat) : Things → List ThingRef → Things
  | ts, [] => ts
  | ts, r :: rest => appendFold s (TList.appendCore ts s r) rest

/-- The `next`/`prev` links run along `a :: l` in order. -/
def linkedFrom (ts : Things) : ThingRef → List ThingRef → Prop
  | _, [] => True
  | a, b :: l =>
    ((ldAt ts a.idx).next = b ∧ (ldAt ts b.idx).prev = a) ∧ linkedFrom ts b l

/-- The state of a list control block at slot `s` with owner reference
`ownerR` and members `r1 :: rest` appended in order. -/
structure ChainInv (ts : Things) (s : Nat) (ownerR r1 : ThingRef)
    (rest : List ThingRef) : Prop where
  ownerBlock : ldAt ts s =
    { things := true, isInitialized := true, owner := ownerR
      first := r1, next := r1, prev := r1 }
  linked : linkedFrom ts r1 rest
  closeNext : (ldAt ts (rest.getLastD r1).idx).next = r1
  closePrev : (ldAt ts r1.idx).prev = rest.getLastD r1
  alive : ∀ r ∈ r1 :: rest, ts.isNotNil r = true ∧ ts.isAlive r = true
  notS : ∀ r ∈ r1 :: rest, r.idx ≠ s
  nodup : ((r1 :: rest).map ThingRef.idx).Nodup

theorem ilAdd_used (ts : Things) (k : ThingRef) (p : BlockPtr) :
    (ts.ilAdd k p).used = ts.used := rfl

theorem ilAdd_generations (ts : Things) (k : ThingRef) (p : BlockPtr) :
    (ts.ilAdd k p).generations = ts.generations := rfl

theorem ilAdd_maxThings (ts : Things) (k : ThingRef) (p : BlockPtr) :
    (ts.ilAdd k p).maxThings = ts.maxThings := rfl

theorem ldAt_ilAdd (ts : Things) (k : ThingRef) (p : BlockPtr) (j : Nat) :
    ldAt (ts.ilAdd k p) j = ldAt ts j := rfl

theorem gldft_ilAdd (ts : Things) (k : ThingRef) (p : BlockPtr) (r : ThingRef) :
    (ts.ilAdd k p).getListDataFromThing r = ts.getListDataFromThing r := rfl

theorem appendCore_used (ts : Things) (s : Nat) (r : ThingRef) :
    (TList.appendCore ts s r).used = ts.used := by
  unfold TList.appendCore
  dsimp only
  split <;> simp [blockWrite_used, ilAdd_used]

theorem appendCore_generations (ts : Things) (s : Nat) (r : ThingRef) :
    (TList.appendCore ts s r).generations = ts.generations := by
  unfold TList.appendCore
  dsimp only
  split <;> simp [blockWrite_generations, ilAdd_generations]

theorem appendCore_maxThings (ts : Things) (s : Nat) (r : ThingRef) :
    (TList.appendCore ts s r).maxThings = ts.maxThings := by
  unfold TList.appendCore
  dsimp only
  split <;> simp [blockWrite_maxThings, ilAdd_maxThings]

theorem appendCore_isNotNil (ts : Things) (s : Nat) (r x : ThingRef) :
    (TList.appendCore ts s r).isNotNil x = ts.isNotNil x := by
  simp [Things.isNotNil, appendCore_maxThings]

theorem appendCore_isAlive (ts : Things) (s : Nat) (r x : ThingRef) :
    (TList.appendCore ts s r).isAlive x = ts.isAlive x := by
  simp [Things.isAlive, appendCore_used, appendCore_generations]

theorem appendFold_used (s : Nat) :
    ∀ (xs : List ThingRef) (ts : Things), (appendFold s ts xs).used = ts.used := by
  intro xs
  induction xs with
  | nil => intro ts; rfl
  | cons x xs ih =>
    intro ts
    show (appendFold s (TList.appendCore ts s x) xs).used = ts.used
    rw [ih, appendCore_used]

theorem appendFold_generations (s : Nat) :
    ∀ (xs : List ThingRef) (ts : Things),
      (appendFold s ts xs).generations = ts.generations := by
  intro xs
  induction xs with
  | nil => intro ts; rfl
  | cons x xs ih =>
    intro ts
    show (appendFold s (TList.appendCore ts s x) xs).generations = ts.generations
    rw [ih, appendCore_generations]

theorem appendFold_maxThings (s : Nat) :
    ∀ (xs : List ThingRef) (ts : Things),
      (appendFold s ts xs).maxThings = ts.maxThings := by
  intro xs
  induction xs with
  | nil => intro ts; rfl
  | cons x xs ih =>
    intro ts
    show (appendFold s (TList.appendCore ts s x) xs).maxThings = ts.maxThings
    rw [ih, appendCore_maxThings]

theorem linkedFrom_congr (ts ts2 : Things) :
    ∀ (l : List ThingRef) (a : ThingRef), linkedFrom ts a l →
      (∀ b ∈ (a :: l).dropLast, (ldAt ts2 b.idx).next = (ldAt ts b.idx).next) →
      (∀ b ∈ l, (ldAt ts2 b.idx).prev = (ldAt ts b.idx).prev) →
      linkedFrom ts2 a l := by
  intro l
  induction l with
  | nil => intro a _ _ _; trivial
  | cons b l ih =>
    intro a h hn hp
    obtain ⟨⟨h1, h2⟩, h3⟩ := h
    refine ⟨⟨?_, ?_⟩, ?_⟩
    · rw [hn a (by simp [List.dropLast_cons₂]), h1]
    · rw [hp b (by simp), h2]
    · refine ih b h3 ?_ ?_
      · intro c hc
        refine hn c ?_
        simp only [List.dropLast_cons₂]
        exact List.mem_cons_of_mem _ hc
      · intro c hc
        exact hp c (List.mem_cons_of_mem _ hc)

theorem linkedFrom_append (ts : Things) (x : ThingRef) :
    ∀ (l : List ThingRef) (a : ThingRef),
      linkedFrom ts a (l ++ [x]) ↔
        (linkedFrom ts a l ∧
          (ldAt ts (l.getLastD a).idx).next = x ∧
          (ldAt ts x.idx).prev = l.getLastD a) := by
  intro l
  induction l with
  | nil =>
    intro a
    constructor
    · intro h
      exact ⟨trivial, h.1.1, h.1.2⟩
    · intro h
      exact ⟨⟨h.2.1, h.2.2⟩, trivial⟩
  | cons b l ih =>
    intro a
    constructor
    · intro h
      obtain ⟨hab, h2⟩ := h
      obtain ⟨hl, hn, hp⟩ := (ih b).mp h2
      exact ⟨⟨hab, hl⟩, by rw [List.getLastD_cons]; exact hn,
        by rw [List.getLastD_cons]; exact hp⟩
    · intro h
      obtain ⟨⟨hab, hl⟩, hn, hp⟩ := h
      refine ⟨hab, (ih b).mpr ⟨hl, ?_, ?_⟩⟩
      · rw [← List.getLastD_cons a b l]; exact hn
      · rw [← List.getLastD_cons a b l]; exact hp

theorem ldAt_bw_eq (ts : Things) (i : Nat) (b : ListData) :
    ldAt (ts.blockWrite (.slot i) b) i = b := by
  rw [ldAt_blockWrite_slot, if_pos rfl]

theorem ldAt_bw_ne (ts : Things) (i : Nat) (b : ListData) (j : Nat) (h : j ≠ i) :
    ldAt (ts.blockWrite (.slot i) b) j = ldAt ts j := by
  rw [ldAt_blockWrite_slot, if_neg h]

theorem blockRead_slot (ts : Things) (i : Nat) :
    ts.blockRead (.slot i) = ldAt ts i := rfl

theorem gldft_bw (ts : Things) (p : BlockPtr) (b : ListData) (r : ThingRef) :
    (ts.blockWrite p b).getListDataFromThing r = ts.getListDataFromThing r := by
  simp [Things.getListDataFromThing, Things.isNotNil, Things.isAlive,
    blockWrite_maxThings, blockWrite_used, blockWrite_generations]

theorem getLastD_mem (l : List ThingRef) (d : ThingRef) :
    l.getLastD d ∈ d :: l := by
  induction l generalizing d with
  | nil => simp
  | cons b l ih =>
    rw [List.getLastD_cons]
    rcases List.mem_cons.mp (ih b) with h | h
    · rw [h]
      exact List.mem_cons_of_mem _ (List.mem_cons_self b l)
    · exact List.mem_cons_of_mem _ (List.mem_cons_of_mem _ h)

theorem appendCore_fields (ts : Things) (s : Nat) (x r1 rk : ThingRef)
    (hx1 : ts.isNotNil x = true) (hx2 : ts.isAlive x = true)
    (hr11 : ts.isNotNil r1 = true) (hr12 : ts.isAlive r1 = true)
    (hrk1 : ts.isNotNil rk = true) (hrk2 : ts.isAlive rk = true)
    (hxs : s ≠ x.idx)
    (hxr1 : r1.idx ≠ x.idx)
    (hxrk : rk.idx ≠ x.idx)
    (hfirst : (ldAt ts s).first = r1)
    (hprev : (ldAt ts r1.idx).prev = rk)
    (hr1nil : r1 ≠ NilRef) :
    (∀ j, j ≠ x.idx → j ≠ rk.idx → j ≠ r1.idx →
      ldAt (TList.appendCore ts s x) j = ldAt ts j) ∧
    ldAt (TList.appendCore ts s x) x.idx =
      { ldAt ts x.idx with
        things := true
        owner := (ldAt ts s).owner
        first := r1
        prev := rk
        next := r1 } ∧
    (ldAt (TList.appendCore ts s x) rk.idx).next = x ∧
    (ldAt (TList.appendCore ts s x) r1.idx).prev = x ∧
    (r1.idx ≠ rk.idx →
      (ldAt (TList.appendCore ts s x) rk.idx).prev = (ldAt ts rk.idx).prev ∧
      (ldAt (TList.appendCore ts s x) r1.idx).next = (ldAt ts r1.idx).next) := by
  unfold TList.appendCore
  dsimp only
  rw [gldft_of_valid ts x hx1 hx2]
  simp only [gldft_bw, gldft_ilAdd, blockRead_slot, ldAt_ilAdd,
    ldAt_bw_eq, ldAt_bw_ne _ _ _ _ hxs]
  rw [if_neg (by
    rw [hfirst]
    intro hc
    exact hr1nil hc.1)]
  rw [hfirst, gldft_of_valid ts r1 hr11 hr12]
  simp only [blockRead_slot, ldAt_bw_ne _ _ _ _ hxr1, ldAt_ilAdd, hprev]
  rw [gldft_of_valid ts rk hrk1 hrk2]
  refine ⟨?_, ?_, ?_, ?_, ?_⟩
  · intro j hjx hjrk hjr1
    rw [ldAt_bw_ne _ _ _ _ hjr1, ldAt_bw_ne _ _ _ _ hjrk, ldAt_bw_ne _ _ _ _ hjx,
      ldAt_bw_ne _ _ _ _ hjx, ldAt_bw_ne _ _ _ _ hjx, ldAt_bw_ne _ _ _ _ hjx,
      ldAt_ilAdd]
  · rw [ldAt_bw_ne _ _ _ _ hxr1.symm, ldAt_bw_ne _ _ _ _ hxrk.symm, ldAt_bw_eq]
  · by_cases hrr : rk.idx = r1.idx
    · rw [hrr, ldAt_bw_eq]
      dsimp only
      rw [blockRead_slot, ← hrr, ldAt_bw_eq]
    · rw [ldAt_bw_ne _ _ _ _ hrr, ldAt_bw_eq]
  · rw [ldAt_bw_eq]
  · intro hne
    constructor
    · rw [ldAt_bw_ne _ _ _ _ (fun h => hne h.symm), ldAt_bw_eq]
      dsimp only
      rw [blockRead_slot, ldAt_bw_ne _ _ _ _ hxrk, ldAt_bw_ne _ _ _ _ hxrk,
        ldAt_bw_ne _ _ _ _ hxrk, ldAt_bw_ne _ _ _ _ hxrk, ldAt_ilAdd]
    · rw [ldAt_bw_eq]
      dsimp only
      rw [blockRead_slot, ldAt_bw_ne _ _ _ _ hne, ldAt_bw_ne _ _ _ _ hxr1,
        ldAt_bw_ne _ _ _ _ hxr1, ldAt_bw_ne _ _ _ _ hxr1, ldAt_bw_ne _ _ _ _ hxr1,
        ldAt_ilAdd]

theorem getLastD_concat (x d : ThingRef) :
    ∀ l : List ThingRef, (l ++ [x]).getLastD d = x := by
  intro l
  induction l generalizing d with
  | nil => rfl
  | cons c l ih =>
    rw [List.cons_append, List.getLastD_cons]
    exact ih c

theorem nodup_map_ne_last (r1 : ThingRef) (rest : List ThingRef)
    (hnd : ((r1 :: rest).map ThingRef.idx).Nodup) :
    ∀ b ∈ (r1 :: rest).dropLast, b.idx ≠ (rest.getLastD r1).idx := by
  induction rest generalizing r1 with
  | nil => intro b hb; simp at hb
  | cons c rest2 ih =>
    intro b hb
    rw [List.getLastD_cons]
    rw [List.dropLast_cons₂] at hb
    have hnd2 : ((c :: rest2).map ThingRef.idx).Nodup :=
      (List.nodup_cons.mp hnd).2
    rcases List.mem_cons.mp hb with h | h
    · subst h
      intro he
      have hmem : (rest2.getLastD c).idx ∈ (c :: rest2).map ThingRef.idx :=
        List.mem_map_of_mem _ (getLastD_mem rest2 c)
      rw [← he] at hmem
      exact (List.nodup_cons.mp hnd).1 hmem
    · exact ih c hnd2 b h

theorem head_idx_ne_of_mem (r1 : ThingRef) (rest : List ThingRef)
    (hnd : ((r1 :: rest).map ThingRef.idx).Nodup) :
    ∀ b ∈ rest, b.idx ≠ r1.idx := by
  intro b hb he
  exact (List.nodup_cons.mp hnd).1 (he ▸ List.mem_map_of_mem _ hb)

theorem chainInv_append (ts : Things) (s : Nat) (O r1 : ThingRef)
    (rest : List ThingRef) (hInv : ChainInv ts s O r1 rest) (x : ThingRef)
    (hx1 : ts.isNotNil x = true) (hx2 : ts.isAlive x = true)
    (hxs : x.idx ≠ s)
    (hxm : x.idx ∉ (r1 :: rest).map ThingRef.idx) :
    ChainInv (TList.appendCore ts s x) s O r1 (rest ++ [x]) := by
  have hrkmem : rest.getLastD r1 ∈ r1 :: rest := getLastD_mem rest r1
  have hr1a := hInv.alive r1 (List.mem_cons_self _ _)
  have hrka := hInv.alive _ hrkmem
  have hxr1 : r1.idx ≠ x.idx := fun h =>
    hxm (h ▸ List.mem_map_of_mem _ (List.mem_cons_self r1 rest))
  have hxrk : (rest.getLastD r1).idx ≠ x.idx := fun h =>
    hxm (h ▸ List.mem_map_of_mem _ hrkmem)
  have hsx : s ≠ x.idx := fun h => hxs h.symm
  have hfirst : (ldAt ts s).first = r1 := by rw [hInv.ownerBlock]
  have hr1nil : r1 ≠ NilRef := isNotNil_ne_nilref ts r1 hr1a.1
  obtain ⟨hjF, hxF, hnF, hpF, hcond⟩ :=
    appendCore_fields ts s x r1 (rest.getLastD r1) hx1 hx2 hr1a.1 hr1a.2
      hrka.1 hrka.2 hsx hxr1 hxrk hfirst hInv.closePrev hr1nil
  have hsr1 : s ≠ r1.idx := fun h => hInv.notS r1 (List.mem_cons_self _ _) h.symm
  have hsrk : s ≠ (rest.getLastD r1).idx := fun h => hInv.notS _ hrkmem h.symm
  have hr1rk : rest ≠ [] → r1.idx ≠ (rest.getLastD r1).idx := by
    intro hne he
    cases rest with
    | nil => exact hne rfl
    | cons c rest2 =>
      rw [List.getLastD_cons] at he
      exact head_idx_ne_of_mem r1 (c :: rest2) hInv.nodup _
        (getLastD_mem rest2 c) he.symm
  have hxFfirst : (ldAt (TList.appendCore ts s x) x.idx).first = r1 := by rw [hxF]
  have hxFnext : (ldAt (TList.appendCore ts s x) x.idx).next = r1 := by rw [hxF]
  have hxFprev : (ldAt (TList.appendCore ts s x) x.idx).prev = rest.getLastD r1 := by
    rw [hxF]
  refine ⟨?_, ?_, ?_, ?_, ?_, ?_, ?_⟩
  · rw [hjF s hsx hsrk hsr1, hInv.ownerBlock]
  · rw [linkedFrom_append]
    refine ⟨?_, hnF, hxFprev⟩
    refine linkedFrom_congr ts (TList.appendCore ts s x) rest r1 hInv.linked ?_ ?_
    · intro b hb
      have hbmem : b ∈ r1 :: rest := List.dropLast_sublist (r1 :: rest) |>.subset hb
      have hbx : b.idx ≠ x.idx := fun h => hxm (h ▸ List.mem_map_of_mem _ hbmem)
      have hbrk : b.idx ≠ (rest.getLastD r1).idx :=
        nodup_map_ne_last r1 rest hInv.nodup b hb
      by_cases hbr1 : b.idx = r1.idx
      · rw [hbr1]
        rcases List.eq_nil_or_concat rest with hrn | _
        · subst hrn; simp at hb
        · exact (hcond (hr1rk (by
            rintro rfl
            simp at hb))).2
      · rw [hjF b.idx hbx hbrk hbr1]
    · intro b hb
      have hbmem : b ∈ r1 :: rest := List.mem_cons_of_mem _ hb
      have hbx : b.idx ≠ x.idx := fun h => hxm (h ▸ List.mem_map_of_mem _ hbmem)
      have hbr1 : b.idx ≠ r1.idx := head_idx_ne_of_mem r1 rest hInv.nodup b hb
      by_cases hbrk : b.idx = (rest.getLastD r1).idx
      · rw [hbrk]
        exact (hcond (hr1rk (by rintro rfl; simp at hb))).1
      · rw [hjF b.idx hbx hbrk hbr1]
  · rw [getLastD_concat x r1 rest]
    exact hxFnext
  · rw [getLastD_concat x r1 rest]
    exact hpF
  · intro r hr
    rw [appendCore_isNotNil, appendCore_isAlive]
    rcases List.mem_cons.mp hr with h | h
    · exact h ▸ hInv.alive r1 (List.mem_cons_self _ _)
    · rcases List.mem_append.mp h with h2 | h2
      · exact hInv.alive r (List.mem_cons_of_mem _ h2)
      · rw [List.mem_singleton.mp h2]
        exact ⟨hx1, hx2⟩
  · intro r hr
    rcases List.mem_cons.mp hr with h | h
    · exact h ▸ hInv.notS r1 (List.mem_cons_self _ _)
    · rcases List.mem_append.mp h with h2 | h2
      · exact hInv.notS r (List.mem_cons_of_mem _ h2)
      · rw [List.mem_singleton.mp h2]
        exact hxs
  · have hnd := hInv.nodup
    rw [List.map_cons, List.nodup_cons] at hnd
    rw [List.map_cons, List.nodup_cons]
    constructor
    · rw [List.map_append]
      intro hmem
      rcases List.mem_append.mp hmem with h | h
      · exact hnd.1 h
      · have hrx : r1.idx = x.idx := by simpa using h
        exact hxm (by
          rw [← hrx]
          exact List.mem_map_of_mem _ (List.mem_cons_self r1 rest))
    · rw [List.map_append, List.nodup_append]
      refine ⟨hnd.2, List.nodup_singleton _, ?_⟩
      intro a ha hb
      have hax : a = x.idx := by simpa using hb
      rw [hax] at ha
      exact hxm (by
        rw [List.map_cons]
        exact List.mem_cons_of_mem _ ha)

theorem chainInv_base (ts : Things) (s : Nat) (O x : ThingRef)
    (hblock : ldAt ts s =
      { ListData.zero with isInitialized := true, owner := O, things := true })
    (hx1 : ts.isNotNil x = true) (hx2 : ts.isAlive x = true)
    (hxs : x.idx ≠ s) :
    ChainInv (TList.appendCore ts s x) s O x [] := by
  have hsx : s ≠ x.idx := fun h => hxs h.symm
  have hall : ldAt (TList.appendCore ts s x) s =
        { things := true, isInitialized := true, owner := O
          first := x, next := x, prev := x } ∧
      (ldAt (TList.appendCore ts s x) x.idx).next = x ∧
      (ldAt (TList.appendCore ts s x) x.idx).prev = x := by
    unfold TList.appendCore
    dsimp only
    rw [gldft_of_valid ts x hx1 hx2]
    rw [if_pos (by
      rw [ldAt_bw_ne _ _ _ _ hsx, ldAt_ilAdd, hblock]
      exact ⟨rfl, rfl, rfl⟩)]
    refine ⟨?_, ?_, ?_⟩
    · rw [ldAt_bw_eq]
      rw [ldAt_bw_ne _ _ _ _ hsx, ldAt_bw_ne _ _ _ _ hsx, ldAt_ilAdd, hblock]
    · rw [ldAt_bw_ne _ _ _ _ hxs, ldAt_bw_eq]
    · rw [ldAt_bw_ne _ _ _ _ hxs, ldAt_bw_eq]
  refine ⟨hall.1, trivial, hall.2.1, hall.2.2, ?_, ?_, ?_⟩
  · intro r hr
    rw [List.mem_singleton.mp hr]
    refine ⟨?_, ?_⟩
    · rw [appendCore_isNotNil]
      exact hx1
    · rw [appendCore_isAlive]
      exact hx2
  · intro r hr
    rw [List.mem_singleton.mp hr]
    exact hxs
  · simp

theorem chainInv_appendFold (s : Nat) (O : ThingRef) :
    ∀ (xs : List ThingRef) (ts : Things) (r1 : ThingRef) (rest : List ThingRef),
      ChainInv ts s O r1 rest →
      (∀ x ∈ xs, ts.isNotNil x = true ∧ ts.isAlive x = true ∧ x.idx ≠ s) →
      (((r1 :: rest).map ThingRef.idx) ++ xs.map ThingRef.idx).Nodup →
      ChainInv (appendFold s ts xs) s O r1 (rest ++ xs) := by
  intro xs
  induction xs with
  | nil =>
    intro ts r1 rest hInv _ _
    simpa using hInv
  | cons x xs ih =>
    intro ts r1 rest hInv hal hnd
    obtain ⟨hA, hB, hdisj⟩ := List.nodup_append.mp hnd
    have hxm : x.idx ∉ (r1 :: rest).map ThingRef.idx := by
      intro hc
      exact hdisj hc (by rw [List.map_cons]; exact List.mem_cons_self _ _)
    obtain ⟨hx1, hx2, hx3⟩ := hal x (List.mem_cons_self _ _)
    have hInv2 := chainInv_append ts s O r1 rest hInv x hx1 hx2 hx3 hxm
    show ChainInv (appendFold s (TList.appendCore ts s x) xs) s O r1 (rest ++ (x :: xs))
    have heq : rest ++ (x :: xs) = (rest ++ [x]) ++ xs := by simp
    rw [heq]
    refine ih (TList.appendCore ts s x) r1 (rest ++ [x]) hInv2 ?_ ?_
    · intro y hy
      obtain ⟨hy1, hy2, hy3⟩ := hal y (List.mem_cons_of_mem _ hy)
      refine ⟨?_, ?_, hy3⟩
      · rw [appendCore_isNotNil]; exact hy1
      · rw [appendCore_isAlive]; exact hy2
    · have heq2 : (r1 :: (rest ++ [x])).map ThingRef.idx ++ xs.map ThingRef.idx
          = (r1 :: rest).map ThingRef.idx ++ (x :: xs).map ThingRef.idx := by
        simp
      rw [heq2]
      exact hnd

theorem eachListAux_succ (ts : Things) (firstR current : ThingRef) (fuel : Nat) :
    TList.eachListAux ts firstR current (fuel + 1) =
      if (ts.blockRead (ts.getListDataFromThing current)).next = firstR
        then [(current, ts.get current)]
        else (current, ts.get current) ::
          TList.eachListAux ts firstR
            (ts.blockRead (ts.getListDataFromThing current)).next fuel := rfl

theorem get_of_valid (ts : Things) (a : ThingRef)
    (h1 : ts.isNotNil a = true) (h2 : ts.isAlive a = true) :
    ts.get a = ts.things a.idx := by
  unfold Things.get
  rw [h1, h2]
  rfl

theorem eachListAux_chain (ts : Things) (r1 : ThingRef) :
    ∀ (l : List ThingRef) (a : ThingRef) (fuel : Nat),
      linkedFrom ts a l →
      (∀ b ∈ a :: l, ts.isNotNil b = true ∧ ts.isAlive b = true) →
      (∀ b ∈ l, b ≠ r1) →
      (ldAt ts (l.getLastD a).idx).next = r1 →
      l.length + 1 ≤ fuel →
      TList.eachListAux ts r1 a fuel
        = (a :: l).map (fun r => (r, ts.things r.idx)) := by
  intro l
  induction l with
  | nil =>
    intro a fuel _ hal _ hclose hfuel
    obtain ⟨f, rfl⟩ : ∃ f, fuel = f + 1 := ⟨fuel - 1, by omega⟩
    have ha := hal a (List.mem_cons_self _ _)
    have hclose2 : (ldAt ts a.idx).next = r1 := hclose
    rw [eachListAux_succ, gldft_of_valid ts a ha.1 ha.2, blockRead_slot,
      hclose2, if_pos rfl, get_of_valid ts a ha.1 ha.2]
    rfl
  | cons b l2 ih =>
    intro a fuel hlink hal hne hclose hfuel
    obtain ⟨f, rfl⟩ : ∃ f, fuel = f + 1 := ⟨fuel - 1, by omega⟩
    obtain ⟨⟨hab, hba⟩, hl2⟩ := hlink
    have ha := hal a (List.mem_cons_self _ _)
    rw [eachListAux_succ, gldft_of_valid ts a ha.1 ha.2, blockRead_slot, hab]
    rw [if_neg (hne b (List.mem_cons_self _ _))]
    have hclose2 : (ldAt ts (l2.getLastD b).idx).next = r1 := by
      rw [List.getLastD_cons] at hclose
      exact hclose
    rw [ih b f hl2 (fun c hc => hal c (List.mem_cons_of_mem _ hc))
      (fun c hc => hne c (List.mem_cons_of_mem _ hc)) hclose2 (by
        simp only [List.length_cons] at hfuel
        omega)]
    rw [get_of_valid ts a ha.1 ha.2]
    rfl

theorem getD_mem : ∀ (l : List ThingRef) (j : Nat) (d : ThingRef),
    j < l.length → l.getD j d ∈ l := by
  intro l
  induction l with
  | nil => intro j d h; simp at h
  | cons b l2 ih =>
    intro j d h
    cases j with
    | zero => exact List.mem_cons_self _ _
    | succ j =>
      rw [List.getD_cons_succ]
      exact List.mem_cons_of_mem _ (ih j d (by
        simp only [List.length_cons] at h
        omega))

theorem getD_default_irrel : ∀ (l : List ThingRef) (j : Nat) (d d' : ThingRef),
    j < l.length → l.getD j d = l.getD j d' := by
  intro l
  induction l with
  | nil => intro j d d' h; simp at h
  | cons b l2 ih =>
    intro j d d' h
    cases j with
    | zero => rfl
    | succ j =>
      rw [List.getD_cons_succ, List.getD_cons_succ]
      exact ih j d d' (by
        simp only [List.length_cons] at h
        omega)

theorem getD_length_getLastD :
    ∀ (rest : List ThingRef) (r1 : ThingRef),
      (r1 :: rest).getD rest.length r1 = rest.getLastD r1 := by
  intro rest
  induction rest with
  | nil => intro r1; rfl
  | cons c rest2 ih =>
    intro r1
    rw [List.getLastD_cons]
    show (r1 :: c :: rest2).getD (rest2.length + 1) r1 = rest2.getLastD c
    rw [List.getD_cons_succ]
    rw [getD_default_irrel (c :: rest2) rest2.length r1 c (by simp)]
    exact ih c

theorem stepNext_chain (ts : Things) :
    ∀ (l : List ThingRef) (a : ThingRef) (j : Nat),
      linkedFrom ts a l →
      (∀ b ∈ a :: l, ts.isNotNil b = true ∧ ts.isAlive b = true) →
      j ≤ l.length →
      (stepNext ts)^[j] a = (a :: l).getD j a := by
  intro l
  induction l with
  | nil =>
    intro a j _ _ hj
    simp only [List.length_nil] at hj
    have hj0 : j = 0 := by omega
    subst hj0
    rfl
  | cons b l2 ih =>
    intro a j hlink hal hj
    cases j with
    | zero => rfl
    | succ j =>
      obtain ⟨⟨hab, _⟩, hl2⟩ := hlink
      have ha := hal a (List.mem_cons_self _ _)
      have hstep : stepNext ts a = b := by
        unfold stepNext
        rw [gldft_of_valid ts a ha.1 ha.2, blockRead_slot, hab]
      rw [Function.iterate_succ_apply, hstep]
      rw [ih b j hl2 (fun c hc => hal c (List.mem_cons_of_mem _ hc)) (by
        simp only [List.length_cons] at hj
        omega)]
      rw [List.getD_cons_succ]
      exact getD_default_irrel (b :: l2) j b a (by
        simp only [List.length_cons]
        simp only [List.length_cons] at hj
        omega)

theorem Init_used (ts : Things) (s : Nat) (r : ThingRef) :
    (TList.Init ts s r).used = ts.used := by
  unfold TList.Init
  split
  · rfl
  split
  · rfl
  · exact blockWrite_used ..

theorem Init_generations (ts : Things) (s : Nat) (r : ThingRef) :
    (TList.Init ts s r).generations = ts.generations := by
  unfold TList.Init
  split
  · rfl
  split
  · rfl
  · exact blockWrite_generations ..

theorem Init_maxThings (ts : Things) (s : Nat) (r : ThingRef) :
    (TList.Init ts s r).maxThings = ts.maxThings := by
  unfold TList.Init
  split
  · rfl
  split
  · rfl
  · exact blockWrite_maxThings ..

theorem nodup_lt_length (l : List Nat) (M : Nat)
    (hnd : l.Nodup) (hlt : ∀ a ∈ l, a < M) : l.length ≤ M := by
  have h1 : l.toFinset.card = l.length := List.toFinset_card_of_nodup hnd
  have h2 : l.toFinset ⊆ Finset.range M := by
    intro a ha
    rw [Finset.mem_range]
    exact hlt a (List.mem_toFinset.mp ha)
  have h3 := Finset.card_le_card h2
  rw [h1, Finset.card_range] at h3
  exact h3

theorem append_guard_false (ts : Things) (s : Nat) (x : ThingRef)
    (hinit : (ldAt ts s).isInitialized = true)
    (hx1 : ts.isNotNil x = true) (hx2 : ts.isAlive x = true) :
    TList.append true ts s x = some (TList.appendCore ts s x) := by
  unfold TList.append
  rw [hinit, hx1, hx2]
  rfl

theorem Append_eq_fold_of_inv (s : Nat) (O r1 : ThingRef) :
    ∀ (xs : List ThingRef) (ts : Things) (rest : List ThingRef),
      ChainInv ts s O r1 rest →
      (∀ x ∈ xs, ts.isNotNil x = true ∧ ts.isAlive x = true ∧ x.idx ≠ s) →
      (((r1 :: rest).map ThingRef.idx) ++ xs.map ThingRef.idx).Nodup →
      TList.Append true ts s xs = some (appendFold s ts xs) := by
  intro xs
  induction xs with
  | nil => intro ts rest _ _ _; rfl
  | cons x xs ih =>
    intro ts rest hInv hal hnd
    obtain ⟨hA, hB, hdisj⟩ := List.nodup_append.mp hnd
    have hxm : x.idx ∉ (r1 :: rest).map ThingRef.idx := by
      intro hc
      exact hdisj hc (by rw [List.map_cons]; exact List.mem_cons_self _ _)
    obtain ⟨hx1, hx2, hx3⟩ := hal x (List.mem_cons_self _ _)
    have hinit : (ldAt ts s).isInitialized = true := by rw [hInv.ownerBlock]
    have hInv2 := chainInv_append ts s O r1 rest hInv x hx1 hx2 hx3 hxm
    show (TList.append true ts s x >>= fun t => TList.Append true t s xs)
      = some (appendFold s (TList.appendCore ts s x) xs)
    rw [append_guard_false ts s x hinit hx1 hx2]
    show TList.Append true (TList.appendCore ts s x) s xs = _
    refine ih (TList.appendCore ts s x) (rest ++ [x]) hInv2 ?_ ?_
    · intro y hy
      obtain ⟨hy1, hy2, hy3⟩ := hal y (List.mem_cons_of_mem _ hy)
      refine ⟨?_, ?_, hy3⟩
      · rw [appendCore_isNotNil]; exact hy1
      · rw [appendCore_isAlive]; exact hy2
    · have heq2 : (r1 :: (rest ++ [x])).map ThingRef.idx ++ xs.map ThingRef.idx
          = (r1 :: rest).map ThingRef.idx ++ (x :: xs).map ThingRef.idx := by
        simp
      rw [heq2]
      exact hnd

theorem isNotNil_congr (ts ts2 : Things) (h : ts2.maxThings = ts.maxThings)
    (r : ThingRef) : ts2.isNotNil r = ts.isNotNil r := by
  unfold Things.isNotNil
  rw [h]

theorem isAlive_congr (ts ts2 : Things) (hu : ts2.used = ts.used)
    (hg : ts2.generations = ts.generations) (r : ThingRef) :
    ts2.isAlive r = ts.isAlive r := by
  unfold Things.isAlive
  rw [hu, hg]

/-- C5: after `Init` on a fresh control block at slot `s` and `Append`
of the distinct live references `x1 :: xs` (none of them stored at slot
`s` itself), the appends all succeed, `Each` yields exactly those
references in order with their records, `Count` reports their number,
and following the `next` pointers from the first member returns to it
after exactly that many steps and not before. -/
theorem c5_append_builds_cycle (ts0 : Things) (s : Nat) (selfR x1 : ThingRef)
    (xs : List ThingRef)
    (hblock0 : ldAt ts0 s = ListData.zero)
    (hself : selfR ≠ NilRef)
    (halive : ∀ r ∈ x1 :: xs, ts0.isNotNil r = true ∧ ts0.isAlive r = true)
    (hnotS : ∀ r ∈ x1 :: xs, r.idx ≠ s)
    (hnodup : ((x1 :: xs).map ThingRef.idx).Nodup) :
    TList.Append true (TList.Init ts0 s selfR) s (x1 :: xs)
      = some (appendFold s (TList.Init ts0 s selfR) (x1 :: xs)) ∧
    TList.EachL (appendFold s (TList.Init ts0 s selfR) (x1 :: xs)) s
      = (x1 :: xs).map (fun r =>
          (r, (appendFold s (TList.Init ts0 s selfR) (x1 :: xs)).things r.idx)) ∧
    TList.Count (appendFold s (TList.Init ts0 s selfR) (x1 :: xs)) s
      = (x1 :: xs).length ∧
    (stepNext (appendFold s (TList.Init ts0 s selfR) (x1 :: xs)))^[(x1 :: xs).length] x1
      = x1 ∧
    (∀ j, 0 < j → j < (x1 :: xs).length →
      (stepNext (appendFold s (TList.Init ts0 s selfR) (x1 :: xs)))^[j] x1 ≠ x1) := by
  have hblock1 : ldAt (TList.Init ts0 s selfR) s =
      { ListData.zero with isInitialized := true, owner := selfR, things := true } := by
    unfold TList.Init
    rw [if_neg hself, if_neg (by rw [hblock0]; exact fun h => h rfl)]
    rw [show ldAt ts0 s = ts0.blockRead (.slot s) from rfl]
    rw [ldAt_bw_eq]
    show { ldAt ts0 s with isInitialized := true, owner := selfR, things := true } = _
    rw [hblock0]
  have hal1 : ∀ r ∈ x1 :: xs,
      (TList.Init ts0 s selfR).isNotNil r = true ∧
      (TList.Init ts0 s selfR).isAlive r = true := by
    intro r hr
    obtain ⟨h1, h2⟩ := halive r hr
    constructor
    · rw [isNotNil_congr ts0 _ (Init_maxThings ts0 s selfR) r]
      exact h1
    · rw [isAlive_congr ts0 _ (Init_used ts0 s selfR) (Init_generations ts0 s selfR) r]
      exact h2
  obtain ⟨hx11, hx12⟩ := hal1 x1 (List.mem_cons_self _ _)
  have hInv1 : ChainInv (TList.appendCore (TList.Init ts0 s selfR) s x1) s selfR x1 [] :=
    chainInv_base (TList.Init ts0 s selfR) s selfR x1 hblock1 hx11 hx12
      (hnotS x1 (List.mem_cons_self _ _))
  have hal2 : ∀ x ∈ xs,
      (TList.appendCore (TList.Init ts0 s selfR) s x1).isNotNil x = true ∧
      (TList.appendCore (TList.Init ts0 s selfR) s x1).isAlive x = true ∧
      x.idx ≠ s := by
    intro x hx
    obtain ⟨h1, h2⟩ := hal1 x (List.mem_cons_of_mem _ hx)
    refine ⟨?_, ?_, hnotS x (List.mem_cons_of_mem _ hx)⟩
    · rw [appendCore_isNotNil]; exact h1
    · rw [appendCore_isAlive]; exact h2
  have hnd2 : (([x1] : List ThingRef).map ThingRef.idx ++ xs.map ThingRef.idx).Nodup := by
    have he : ([x1] : List ThingRef).map ThingRef.idx ++ xs.map ThingRef.idx
        = (x1 :: xs).map ThingRef.idx := by simp
    rw [he]
    exact hnodup
  have hInvF : ChainInv (appendFold s (TList.Init ts0 s selfR) (x1 :: xs)) s selfR x1 xs :=
    chainInv_appendFold s selfR xs
      (TList.appendCore (TList.Init ts0 s selfR) s x1) x1 [] hInv1 hal2 hnd2
  have hApp : TList.Append true (TList.Init ts0 s selfR) s (x1 :: xs)
      = some (appendFold s (TList.Init ts0 s selfR) (x1 :: xs)) := by
    show (TList.append true (TList.Init ts0 s selfR) s x1 >>=
      fun t => TList.Append true t s xs) = _
    rw [append_guard_false (TList.Init ts0 s selfR) s x1 (by rw [hblock1]) hx11 hx12]
    show TList.Append true (TList.appendCore (TList.Init ts0 s selfR) s x1) s xs = _
    exact Append_eq_fold_of_inv s selfR x1 xs
      (TList.appendCore (TList.Init ts0 s selfR) s x1) [] hInv1 hal2 hnd2
  have hmaxbound : (x1 :: xs).length
      ≤ (appendFold s (TList.Init ts0 s selfR) (x1 :: xs)).maxThings := by
    have hlen := nodup_lt_length ((x1 :: xs).map ThingRef.idx)
      ((appendFold s (TList.Init ts0 s selfR) (x1 :: xs)).maxThings) hnodup (by
        intro a ha
        obtain ⟨r, hr, rfl⟩ := List.mem_map.mp ha
        have h1 := (hInvF.alive r hr).1
        unfold Things.isNotNil at h1
        obtain ⟨_, h3⟩ := (Bool.and_eq_true _ _).mp h1
        exact of_decide_eq_true h3)
    rw [List.length_map] at hlen
    exact hlen
  have hne1 : ∀ b ∈ xs, b ≠ x1 := fun b hb he =>
    head_idx_ne_of_mem x1 xs hnodup b hb (congrArg ThingRef.idx he)
  have hEach : TList.EachL (appendFold s (TList.Init ts0 s selfR) (x1 :: xs)) s
      = (x1 :: xs).map (fun r =>
          (r, (appendFold s (TList.Init ts0 s selfR) (x1 :: xs)).things r.idx)) := by
    unfold TList.EachL
    dsimp only
    rw [hInvF.ownerBlock]
    rw [if_neg (by simp)]
    exact eachListAux_chain _ x1 xs x1 _ hInvF.linked hInvF.alive hne1
      hInvF.closeNext (by
        simp only [List.length_cons] at hmaxbound
        omega)
  refine ⟨hApp, hEach, ?_, ?_, ?_⟩
  · unfold TList.Count
    rw [hInvF.ownerBlock]
    rw [if_neg (by simp)]
    rw [hEach, List.length_map]
  · have hwalk := stepNext_chain (appendFold s (TList.Init ts0 s selfR) (x1 :: xs))
      xs x1 xs.length hInvF.linked hInvF.alive le_rfl
    have hrka := hInvF.alive (xs.getLastD x1) (getLastD_mem xs x1)
    have hstep_last : stepNext (appendFold s (TList.Init ts0 s selfR) (x1 :: xs))
        (xs.getLastD x1) = x1 := by
      unfold stepNext
      rw [gldft_of_valid _ _ hrka.1 hrka.2, blockRead_slot, hInvF.closeNext]
    rw [List.length_cons, Function.iterate_succ_apply', hwalk,
      getD_length_getLastD, hstep_last]
  · intro j hj0 hjlen
    rw [List.length_cons] at hjlen
    have hwj := stepNext_chain (appendFold s (TList.Init ts0 s selfR) (x1 :: xs))
      xs x1 j hInvF.linked hInvF.alive (by omega)
    rw [hwj]
    obtain ⟨i, rfl⟩ : ∃ i, j = i + 1 := ⟨j - 1, by omega⟩
    rw [List.getD_cons_succ]
    have hmem : xs.getD i x1 ∈ xs := getD_mem xs i x1 (by omega)
    exact fun he => head_idx_ne_of_mem x1 xs hnodup _ hmem (congrArg ThingRef.idx he)

theorem c5_append_builds_cycle_witness :
    (ldAt arena3 1 = ListData.zero ∧
      refA ≠ NilRef ∧
      (∀ r ∈ refB :: [refC], arena3.isNotNil r = true ∧ arena3.isAlive r = true) ∧
      (∀ r ∈ refB :: [refC], r.idx ≠ 1) ∧
      ((refB :: [refC]).map ThingRef.idx).Nodup) ∧
    (TList.Append true (TList.Init arena3 1 refA) 1 (refB :: [refC])
      = some (appendFold 1 (TList.Init arena3 1 refA) (refB :: [refC])) ∧
    TList.EachL (appendFold 1 (TList.Init arena3 1 refA) (refB :: [refC])) 1
      = (refB :: [refC]).map (fun r =>
          (r, (appendFold 1 (TList.Init arena3 1 refA) (refB :: [refC])).things r.idx)) ∧
    TList.Count (appendFold 1 (TList.Init arena3 1 refA) (refB :: [refC])) 1
      = (refB :: [refC]).length ∧
    (stepNext (appendFold 1 (TList.Init arena3 1 refA) (refB :: [refC])))^[(refB :: [refC]).length] refB
      = refB ∧
    (∀ j, 0 < j → j < (refB :: [refC]).length →
      (stepNext (appendFold 1 (TList.Init arena3 1 refA) (refB :: [refC])))^[j] refB ≠ refB)) :=
  ⟨⟨by decide, by decide, by decide, by decide, by decide⟩,
    c5_append_builds_cycle arena3 1 refA refB [refC]
      (by decide) (by decide) (by decide) (by decide) (by decide)⟩
